import Mathlib

/-!
Verification of the layout-based PDF table extraction algorithm
(`extraction_algorithm.py`).

The embedding below translates the Python source into Lean.  Python floats
are modelled as exact rationals (`ℚ`); Python's `int(...)` truncation is
`pyint`; Python dicts (used in insertion order) are modelled as association
lists; `pandas.DataFrame` construction and its empty-row filtering is
modelled on the underlying list-of-rows.  A page whose token extraction
raises is modelled as `none` in the document's page list, matching the
single `try/except` that wraps the page loop of both extractors.

The `spacing_variance` component of `analyze_row_spacing` (a float
standard-deviation ratio, computed with `np.std` and never consumed by any
downstream code) is not modelled; regions carry `(start_idx, end_idx,
avg_spacing)`.
-/

namespace PdfExtract

/-- A positioned text token, as produced by `page.extract_words`:
bounding box `x0 < x1`, `top < bottom`, and the text. -/
structure Token where
  x0 : ℚ
  x1 : ℚ
  top : ℚ
  bottom : ℚ
  text : String
deriving DecidableEq, Repr

/-- A row: the representative y-position (first member's `top`) together
with the member tokens in insertion order. -/
abbrev Row := ℚ × List Token

/-- A page: its width and its extracted tokens (`page.width`,
`page.extract_words(...)`). -/
structure PageData where
  width : ℚ
  words : List Token
deriving DecidableEq, Repr

/-- Python `int(...)`: truncation of a float toward zero. -/
def pyint (q : ℚ) : ℤ := if 0 ≤ q then ⌊q⌋ else ⌈q⌉

/-- Python `min` of a list of numbers (0 on the empty list, which the
source never passes). -/
def listMin : List ℚ → ℚ
  | [] => 0
  | x :: xs => xs.foldl min x

/-- Python `max` of a list of numbers (0 on the empty list, which the
source never passes). -/
def listMax : List ℚ → ℚ
  | [] => 0
  | x :: xs => xs.foldl max x

/-- Python `np.mean` of a list of numbers. -/
def listMean (l : List ℚ) : ℚ := l.sum / (l.length : ℚ)

/-- Ordering of rows by their key (`sorted(rows_dict.keys())`). -/
def keyLE (a b : Row) : Prop := a.1 ≤ b.1

instance : DecidableRel keyLE := fun a b => inferInstanceAs (Decidable (a.1 ≤ b.1))

instance : IsTotal Row keyLE := ⟨fun a b => le_total a.1 b.1⟩

instance : IsTrans Row keyLE := ⟨fun _ _ _ h1 h2 => le_trans h1 h2⟩

/-- Ordering of tokens by left edge (`sorted(row_words, key=lambda w: w['x0'])`;
`insertionSort` is stable, like Python's sort). -/
def xLE (a b : Token) : Prop := a.x0 ≤ b.x0

instance : DecidableRel xLE := fun a b => inferInstanceAs (Decidable (a.x0 ≤ b.x0))

instance : IsTotal Token xLE := ⟨fun a b => le_total a.x0 b.x0⟩

instance : IsTrans Token xLE := ⟨fun _ _ _ h1 h2 => le_trans h1 h2⟩

/-- One step of the row-grouping loop: the token joins the first open row
(in insertion order) whose key is within `tol` of its `top`, else a new
row keyed at its own `top` is appended. -/
def addWord (tol : ℚ) (acc : List Row) (w : Token) : List Row :=
  match acc with
  | [] => [(w.top, [w])]
  | r :: rest =>
      if |w.top - r.1| ≤ tol then (r.1, r.2 ++ [w]) :: rest
      else r :: addWord tol rest w

/-- `detect_rows_with_consistent_spacing`: group tokens into rows by
`top`-proximity (first-token-wins keys), then sort rows by key. -/
def detect_rows_with_consistent_spacing (words : List Token) (tol : ℚ) : List Row :=
  List.insertionSort keyLE (words.foldl (addWord tol) [])

/-- Consecutive inter-row spacings `row[i+1].y - row[i].y`. -/
def spacingsOf (rows : List Row) : List ℚ :=
  List.zipWith (fun a b => b.1 - a.1) rows rows.tail

/-- The region-splitting loop of `analyze_row_spacing`: a spacing strictly
greater than 200 ends the current region at the preceding row and starts a
new one at the next row; the trailing region is appended afterwards. -/
def regionsGo (n : ℕ) : List ℚ → ℕ → ℕ → List (ℕ × ℕ)
  | [], _, rs =>
      if rs < n - 1 then [(rs, n - 1)]
      else if rs = n - 1 then [(rs, rs)]
      else []
  | s :: rest, i, rs =>
      if 200 < s then (rs, i) :: regionsGo n rest (i + 1) (i + 1)
      else regionsGo n rest (i + 1) rs

/-- Average spacing attached to a region `(a, b)`: the mean of the
spacings inside the region; for a single-row region, the gap that closed
it, or the constant 10 for a trailing single row. -/
def regionAvg (n : ℕ) (spacings : List ℚ) (p : ℕ × ℕ) : ℚ :=
  if p.1 < p.2 then listMean ((spacings.drop p.1).take (p.2 - p.1))
  else if p.1 = n - 1 then 10
  else spacings.getD p.1 0

/-- `analyze_row_spacing`: split the ordered rows into regions at spacings
strictly greater than 200; fewer than 2 rows produce no regions.  The
source's trailing `if not table_regions` fallback is dead code (with at
least 2 rows the final append always fires, since `region_start` never
exceeds the last row index) and is not modelled. -/
def analyze_row_spacing (rows : List Row) : List (ℕ × ℕ × ℚ) :=
  if rows.length < 2 then []
  else
    (regionsGo rows.length (spacingsOf rows) 0 0).map
      (fun p => (p.1, p.2, regionAvg rows.length (spacingsOf rows) p))

/-- All `x0` and `x1` values of the region's tokens, in traversal order. -/
def allXPositions (rows : List Row) : List ℚ :=
  (rows.map (fun r => (r.2.map (fun w => [w.x0, w.x1])).flatten)).flatten

/-- `int(word['x0'] / x_resolution) * x_resolution` with resolution 2. -/
def wordXStart (w : Token) : ℤ := 2 * pyint (w.x0 / 2)

/-- `int(word['x1'] / x_resolution) * x_resolution` with resolution 2. -/
def wordXEnd (w : Token) : ℤ := 2 * pyint (w.x1 / 2)

/-- Membership in the `occupied` set of one row: the set holds
`range(x_start, x_end + 2, 2)` for each word of the row. -/
def rowOccupied (ws : List Token) (x : ℤ) : Bool :=
  ws.any (fun w =>
    decide (wordXStart w ≤ x) && decide (x ≤ wordXEnd w) &&
    decide ((x - wordXStart w) % 2 = 0))

/-- `gap_positions[x]`: the number of rows with no coverage at `x`, for
`x` ranging over `range(content_start, content_end, 2)`; 0 for any other
`x` (the dictionary holds no such key). -/
def gapCount (rows : List Row) (cs ce x : ℤ) : ℕ :=
  if cs ≤ x ∧ x < ce ∧ (x - cs) % 2 = 0 then
    (rows.filter (fun r => !rowOccupied r.2 x)).length
  else 0

/-- `range(0, int(page_width), 2)`: the x-positions scanned for gaps. -/
def scanXs (width : ℚ) : List ℤ :=
  (List.range (((pyint width).toNat + 1) / 2)).map (fun k => 2 * (k : ℤ))

/-- One step of the separator scan: open a gap at a persistent position,
close it at the first non-persistent one, recording the midpoint when the
gap is wide enough and away from the page edges. -/
def gapStep (rows : List Row) (cs ce : ℤ) (thr mgw width : ℚ)
    (st : Option ℤ × List ℚ) (x : ℤ) : Option ℤ × List ℚ :=
  if thr ≤ (gapCount rows cs ce x : ℚ) then
    match st.1 with
    | none => (some x, st.2)
    | some _ => st
  else
    match st.1 with
    | none => st
    | some gs =>
        (none,
          if mgw ≤ ((x - gs : ℤ) : ℚ) ∧
             30 < ((gs + x : ℤ) : ℚ) / 2 ∧ ((gs + x : ℤ) : ℚ) / 2 < width - 30
          then st.2 ++ [((gs + x : ℤ) : ℚ) / 2]
          else st.2)

/-- The primary (whitespace-gap persistence) strategy of
`detect_vertical_gaps`, up to but not including the position-clustering
fallback: persistent uncovered positions (in at least 15% of rows) are
grouped into runs; a run at least 5% of the page width wide yields a
separator at its midpoint, edges excluded. -/
def primary_separators (rows : List Row) (width : ℚ) : List ℚ :=
  let axs := allXPositions rows
  if axs = [] then []
  else
    let cs := pyint (listMin axs)
    let ce := pyint (listMax axs)
    let thr : ℚ := (15 / 100 : ℚ) * (rows.length : ℚ)
    let mgw : ℚ := width * (5 / 100 : ℚ)
    ((scanXs width).foldl (gapStep rows cs ce thr mgw width) (none, [])).2

/-- `detect_column_separators_by_position`: sort all token `x0` values,
greedily cluster values within 30 units of the previous one, keep clusters
supported by at least 10% of the rows, and place separators midway between
adjacent cluster means, edges excluded.  The running cluster is kept in
reverse order (its head is the last value added). -/
def detect_column_separators_by_position (rows : List Row) (width : ℚ) : List ℚ :=
  let xs := (rows.map (fun r => r.2.map (fun w => w.x0))).flatten
  match List.insertionSort (· ≤ ·) xs with
  | [] => []
  | x0 :: rest =>
      let keep : List ℚ → Bool := fun c => decide ((rows.length : ℚ) * (1 / 10 : ℚ) ≤ (c.length : ℚ))
      let st := rest.foldl
        (fun (st : List ℚ × List ℚ) x =>
          if x - st.1.headD 0 < 30 then (x :: st.1, st.2)
          else (if keep st.1 then (x :: [], st.2 ++ [listMean st.1]) else (x :: [], st.2)))
        ([x0], [])
      let clusters := if keep st.1 then st.2 ++ [listMean st.1] else st.2
      (List.zipWith (fun a b => (a + b) / 2) clusters clusters.tail).filter
        (fun s => decide (30 < s) && decide (s < width - 30))

/-- Number of rows with more than 2 tokens (`multi_word_rows`). -/
def mwCount (rows : List Row) : ℕ :=
  (rows.filter (fun r => decide (2 < r.2.length))).length

/-- `detect_vertical_gaps`: the primary whitespace-gap strategy, falling
back to position clustering when it finds no separator and strictly more
than 30% of the rows have more than 2 tokens. -/
def detect_vertical_gaps (rows : List Row) (width : ℚ) : List ℚ :=
  if allXPositions rows = [] then []
  else
    let seps := primary_separators rows width
    if seps = [] ∧ 0 < rows.length ∧
       (3 / 10 : ℚ) * (rows.length : ℚ) < (mwCount rows : ℚ)
    then detect_column_separators_by_position rows width
    else seps

/-- The exact condition under which `detect_vertical_gaps` takes its
position-clustering fallback branch (the region has tokens, the primary
strategy found nothing, and strictly more than 30% of the rows have more
than 2 tokens). -/
def fallback_used (rows : List Row) (width : ℚ) : Bool :=
  decide (allXPositions rows ≠ []) &&
  decide (primary_separators rows width = []) &&
  decide (0 < rows.length) &&
  decide ((3 / 10 : ℚ) * (rows.length : ℚ) < (mwCount rows : ℚ))

/-- Midpoint of a token's span. -/
def wordCenter (w : Token) : ℚ := (w.x0 + w.x1) / 2

/-- The separator walk of the source (`if pos > sep: col += 1 else break`):
the number of leading separators strictly below the reference position. -/
def colWalk (seps : List ℚ) (pos : ℚ) : ℕ :=
  (seps.takeWhile (fun s => decide (s < pos))).length

/-- Whether a token's span straddles any separator by more than the
10-unit tolerance (`word['x0'] < sep - 10 < word['x1']`). -/
def crossesSep (seps : List ℚ) (w : Token) : Bool :=
  seps.any (fun s => decide (w.x0 < s - 10) && decide (s - 10 < w.x1))

/-- A row is counted as aligned when no token straddles a separator and
its tokens (by center position) use at least 2 distinct columns. -/
def rowAligned (seps : List ℚ) (ws : List Token) : Bool :=
  !ws.any (crossesSep seps) &&
  decide (2 ≤ ((ws.map (fun w => colWalk seps (wordCenter w))).dedup).length)

/-- `validate_column_alignment`: at least 30% of the rows must be aligned
(advisory only; empty separator list is immediately invalid). -/
def validate_column_alignment (rows : List Row) (seps : List ℚ) : Bool :=
  if seps = [] then false
  else
    let frac : ℚ :=
      if rows ≠ [] then
        ((rows.filter (fun r => rowAligned seps r.2)).length : ℚ) / (rows.length : ℚ)
      else 0
    decide ((3 / 10 : ℚ) ≤ frac)

/-- Characters allowed by the legacy numeric classifier
`^[\$\-\d,\.]+$`. -/
def numChar (c : Char) : Bool :=
  c == '$' || c == '-' || c.isDigit || c == ',' || c == '.'

/-- `re.match(r'^[\$\-\d,\.]+$', text)`: the text is non-empty and made
only of `$`, `-`, digits, commas and periods. -/
def pyNumRe (s : String) : Bool := !s.isEmpty && s.toList.all numChar

/-- Digits or commas (`[\d,]`). -/
def digitsCommas (l : List Char) : Bool := l.all (fun c => c.isDigit || c == ',')

/-- Full match of `\-?\d[\d,]*\.\d+`. -/
def finDecimal (l : List Char) : Bool :=
  let l2 := if l.headD ' ' == '-' then l.tail else l
  match l2.splitOn '.' with
  | [a, b] =>
      (match a with
       | [] => false
       | c :: rest => c.isDigit && digitsCommas rest) &&
      !b.isEmpty && b.all Char.isDigit
  | _ => false

/-- Full match of `\d[\d,]+`. -/
def finGrouped (l : List Char) : Bool :=
  match l with
  | c :: rest => c.isDigit && !rest.isEmpty && digitsCommas rest
  | [] => false

/-- Full match of `\d[\d,]*\.?\d*` (the inside of the parenthesised
negative-amount alternative). -/
def finParenInner (l : List Char) : Bool :=
  match l.splitOn '.' with
  | [a] =>
      (match a with
       | [] => false
       | c :: rest => c.isDigit && digitsCommas rest)
  | [a, b] =>
      (match a with
       | [] => false
       | c :: rest => c.isDigit && digitsCommas rest) && b.all Char.isDigit
  | _ => false

/-- Full match of `\(\d[\d,]*\.?\d*\)`. -/
def finParen (l : List Char) : Bool :=
  match l with
  | '(' :: rest =>
      (match rest.getLast? with
       | some ')' => finParenInner rest.dropLast
       | _ => false)
  | _ => false

/-- `re.search` of the financial pattern
`[\$€£¥%]|^\-?\d[\d,]*\.\d+$|^\d[\d,]+$|^\(\d[\d,]*\.?\d*\)$`
on the stripped token text. -/
def finMatch (s : String) : Bool :=
  let l := s.trim.toList
  l.any (fun c => c == '$' || c == '€' || c == '£' || c == '¥' || c == '%') ||
  finDecimal l || finGrouped l || finParen l

/-- `has_financial_patterns`: look for a financial-looking token, in the
rightmost column when separators exist, else anywhere in the row. -/
def has_financial_patterns (row_words : List Token) (seps : List ℚ) : Bool :=
  let toCheck :=
    match seps with
    | [] => row_words
    | _ => row_words.filter (fun w => decide (seps.getLastD 0 < w.x0))
  toCheck.any (fun w => finMatch w.text)

/-- A detected table region: its rows, separators, column count and
metadata, as assembled by `identify_table_regions`. -/
structure RegionInfo where
  rows : List Row
  separators : List ℚ
  num_columns : ℕ
  avg_row_spacing : ℚ
  has_financial : Bool
  alignment_valid : Bool
  words_per_row : ℚ
deriving DecidableEq, Repr

/-- The per-region body of `identify_table_regions`: slice the region's
rows out of the sorted rows, detect separators, and assemble the region
record (the source accepts every region; the alignment check is advisory
metadata only). -/
def buildRegion (width : ℚ) (sorted_rows : List Row) (reg : ℕ × ℕ × ℚ) : Option RegionInfo :=
  let region_rows := (sorted_rows.drop reg.1).take (reg.2.1 + 1 - reg.1)
  if region_rows.length < 1 then none
  else
    let seps := detect_vertical_gaps region_rows width
    let av := if 0 < seps.length then validate_column_alignment region_rows seps else true
    let hf := region_rows.any (fun r => has_financial_patterns r.2 seps)
    let tw := (region_rows.map (fun r => r.2.length)).sum
    let wpr : ℚ :=
      if region_rows ≠ [] then (tw : ℚ) / (region_rows.length : ℚ) else 0
    some { rows := region_rows, separators := seps,
           num_columns := seps.length + 1, avg_row_spacing := reg.2.2,
           has_financial := hf, alignment_valid := av, words_per_row := wpr }

/-- The region pipeline of `identify_table_regions` after its token-count
guards: group rows, split into regions, and detect separators per
region. -/
def identifyCore (page : PageData) : List RegionInfo :=
  let sorted_rows := detect_rows_with_consistent_spacing page.words 3
  if sorted_rows.length < 1 then []
  else
    let regions := analyze_row_spacing sorted_rows
    if regions = [] then []
    else regions.filterMap (buildRegion page.width sorted_rows)

/-- `identify_table_regions`: pages with no tokens or fewer than 10 tokens
yield no regions; otherwise the region pipeline runs. -/
def identify_table_regions (page : PageData) : List RegionInfo :=
  if page.words = [] ∨ page.words.length < 10 then []
  else identifyCore page

/-- Variant of `identify_table_regions` with the minimum-token-count guard
removed (the empty-page guard is kept); used to state what the region
pipeline does on pages the guard excludes. -/
def identify_table_regions_nomin (page : PageData) : List RegionInfo :=
  if page.words = [] then []
  else identifyCore page

/-- Column index of a token in the no-separator branch of cell assembly:
`min(int(x0 / (page_width / num_cols)), num_cols - 1)` as a (possibly
negative) integer.  Python's negative-index wraparound, reachable only for
tokens with a negative `x0`, is not modelled: the index is clamped to 0 by
`Int.toNat` at the use site. -/
def colIndexNoSep (width : ℚ) (numCols : ℕ) (x0 : ℚ) : ℤ :=
  min (pyint (x0 / (width / (numCols : ℚ)))) ((numCols : ℤ) - 1)

/-- Write a token's text into a cell: append with a separating space when
the cell already holds text. -/
def setCellAt (row : List String) (i : ℕ) (t : String) : List String :=
  row.set i (if row.getD i "" ≠ "" then row.getD i "" ++ " " ++ t else t)

/-- Assemble one grid row: sort the row's tokens by `x0`, place each into
its column (separator walk on the left edge when separators exist, equal
page bands otherwise), then strip every cell. -/
def assembleRow (width : ℚ) (numCols : ℕ) (seps : List ℚ) (ws : List Token) : List String :=
  let sortedWs := List.insertionSort xLE ws
  let filled := sortedWs.foldl
    (fun row w =>
      if seps = [] then
        setCellAt row (colIndexNoSep width numCols w.x0).toNat w.text
      else
        let ci := colWalk seps w.x0
        if ci < numCols then setCellAt row ci w.text else row)
    (List.replicate numCols "")
  filled.map String.trim

/-- `table_data` of one region: the assembled rows, keeping only rows with
at least one non-empty cell. -/
def buildTableData (width : ℚ) (info : RegionInfo) : List (List String) :=
  (info.rows.map (fun r => assembleRow width info.num_columns info.separators r.2)).filter
    (fun row => row.any (fun c => c ≠ ""))

/-- A table emitted by the enhanced extractor. -/
structure TableE where
  page : ℕ
  grid : List (List String)
  num_columns : ℕ
  table_index : ℕ
  has_financial : Bool
  separators : List ℚ
deriving DecidableEq, Repr

/-- Build the emitted table of one region: the DataFrame construction and
its removal of fully-empty rows (`df[df.apply(any, axis=1)]`). -/
def buildTable (pnum idx : ℕ) (width : ℚ) (info : RegionInfo) : Option TableE :=
  let td := buildTableData width info
  if td ≠ [] then
    let dfRows := td.filter (fun row => row.any (fun c => c ≠ ""))
    if dfRows ≠ [] then
      some { page := pnum, grid := dfRows, num_columns := info.num_columns,
             table_index := idx, has_financial := info.has_financial,
             separators := info.separators }
    else none
  else none

/-- All tables of one page in the enhanced extractor (regions enumerated
from 0). -/
def tablesOfPage (pnum : ℕ) (page : PageData) : List TableE :=
  (identify_table_regions page).enum.filterMap
    (fun p => buildTable pnum p.1 page.width p.2)

/-- The page loop of `extract_table_with_column_detection`, with the
1-based page counter: a page that raises (modelled as `none`) makes the
surrounding `except` return the tables accumulated so far, so no later
page is processed. -/
def extractGoE : ℕ → List (Option PageData) → List TableE
  | _, [] => []
  | _, none :: _ => []
  | n, some p :: rest => tablesOfPage n p ++ extractGoE (n + 1) rest

/-- `extract_table_with_column_detection` over a document's pages. -/
def extract_table_with_column_detection (pages : List (Option PageData)) : List TableE :=
  extractGoE 1 pages

/-- The legacy global column split of `extract_table_spatial`: traverse the
grouped rows (sorted by y, tokens sorted by `x0`), collect right edges of
non-numeric-looking tokens and left edges of numeric-looking ones, and take
the midpoint of their extremes, defaulting to half the page width when
either class is absent. -/
def spatialSplit (rows : List Row) (width : ℚ) : ℚ :=
  let ws := (rows.map (fun r => List.insertionSort xLE r.2)).flatten
  let textXs := (ws.filter (fun w => !pyNumRe w.text)).map (fun w => w.x1)
  let numXs := (ws.filter (fun w => pyNumRe w.text)).map (fun w => w.x0)
  if textXs ≠ [] ∧ numXs ≠ [] then (listMax textXs + listMin numXs) / 2
  else width / 2

/-- A table emitted by the legacy spatial extractor. -/
structure TableS where
  page : ℕ
  grid : List (List String)
deriving DecidableEq, Repr

/-- The two cells of one legacy row: texts of tokens left of the split and
texts of the remaining tokens, each joined by spaces and stripped. -/
def spatialRowCells (split : ℚ) (ws : List Token) : List String :=
  let sw := List.insertionSort xLE ws
  let c1 := (String.intercalate " " ((sw.filter (fun w => decide (w.x0 < split))).map (fun w => w.text))).trim
  let c2 := (String.intercalate " " ((sw.filter (fun w => decide (split ≤ w.x0))).map (fun w => w.text))).trim
  [c1, c2]

/-- The per-page body of `extract_table_spatial`: group rows, compute the
split, build the two-column rows (dropping rows with both cells empty),
and emit at most one table. -/
def tablesOfPageS (pnum : ℕ) (page : PageData) : Option TableS :=
  if page.words = [] then none
  else
    let rows := detect_rows_with_consistent_spacing page.words 3
    let split := spatialSplit rows page.width
    let td := rows.filterMap (fun r =>
      let cells := spatialRowCells split r.2
      if cells.getD 0 "" ≠ "" ∨ cells.getD 1 "" ≠ "" then some cells else none)
    if td ≠ [] then
      let dfRows := td.filter (fun row => row.getD 0 "" ≠ "" ∨ row.getD 1 "" ≠ "")
      if dfRows ≠ [] then some { page := pnum, grid := dfRows } else none
    else none

/-- The page loop of `extract_table_spatial` (1-based pages, abort on a
raising page, as in the enhanced extractor). -/
def extractGoS : ℕ → List (Option PageData) → List TableS
  | _, [] => []
  | _, none :: _ => []
  | n, some p :: rest => (tablesOfPageS n p).toList ++ extractGoS (n + 1) rest

/-- `extract_table_spatial` over a document's pages. -/
def extract_table_spatial (pages : List (Option PageData)) : List TableS :=
  extractGoS 1 pages

/-- Spec-side split point, following the spec's words: the midpoint
between the maximum right edge over the page's non-numeric-looking tokens
and the minimum left edge over its numeric-looking tokens, defaulting to
half the page width when either class is absent.  Stated directly over the
page's token list (the source computes it through the grouped rows). -/
def spatial_split_spec (words : List Token) (width : ℚ) : ℚ :=
  let textXs := (words.filter (fun w => !pyNumRe w.text)).map (fun w => w.x1)
  let numXs := (words.filter (fun w => pyNumRe w.text)).map (fun w => w.x0)
  if textXs ≠ [] ∧ numXs ≠ [] then (listMax textXs + listMin numXs) / 2
  else width / 2

/-- Spec-side per-page legacy table, identical to `tablesOfPageS` except
that the split point is `spatial_split_spec` over the raw token list. -/
def tablesOfPageS_spec (pnum : ℕ) (page : PageData) : Option TableS :=
  if page.words = [] then none
  else
    let rows := detect_rows_with_consistent_spacing page.words 3
    let split := spatial_split_spec page.words page.width
    let td := rows.filterMap (fun r =>
      let cells := spatialRowCells split r.2
      if cells.getD 0 "" ≠ "" ∨ cells.getD 1 "" ≠ "" then some cells else none)
    if td ≠ [] then
      let dfRows := td.filter (fun row => row.getD 0 "" ≠ "" ∨ row.getD 1 "" ≠ "")
      if dfRows ≠ [] then some { page := pnum, grid := dfRows } else none
    else none

/-- Spec-side no-separator column index: `floor(x0 / (page_width /
num_columns))` clamped to `num_columns - 1`, as the spec words it. -/
def colIndexNoSep_spec (width : ℚ) (numCols : ℕ) (x0 : ℚ) : ℕ :=
  min (Int.toNat ⌊x0 / (width / (numCols : ℚ))⌋) (numCols - 1)

/-- The tokens of all rows, in row order (`flatten` of the member
lists). -/
def rowTokens (l : List Row) : List Token := (l.map (fun r => r.2)).flatten

/-- Shorthand for building a test token. -/
def mkTok (x0 x1 top : ℚ) (s : String) : Token :=
  { x0 := x0, x1 := x1, top := top, bottom := top + 8, text := s }

/-- Scenario 1 of the spec: two rows, `Revenue`/`100` and `Cost`/`50`,
with whitespace between x = 60 and x = 390 in every row (4 tokens in
total, page width 612). -/
def scenarioPage : PageData :=
  { width := 612,
    words := [mkTok 10 50 100 "Revenue", mkTok 400 440 100 "100",
              mkTok 10 50 130 "Cost", mkTok 400 440 130 "50"] }

/-- A 12-token two-column page (width 100) that passes the 10-token guard
and yields exactly one table with one separator. -/
def richPage : PageData :=
  { width := 100,
    words := [mkTok 0 30 10 "a", mkTok 60 90 10 "1",
              mkTok 0 30 20 "b", mkTok 60 90 20 "2",
              mkTok 0 30 30 "c", mkTok 60 90 30 "3",
              mkTok 0 30 40 "d", mkTok 60 90 40 "4",
              mkTok 0 30 50 "e", mkTok 60 90 50 "5",
              mkTok 0 30 60 "f", mkTok 60 90 60 "6"] }

/-- The table the enhanced extractor emits for `richPage` as page 1. -/
def richTable : TableE :=
  { page := 1,
    grid := [["a", "1"], ["b", "2"], ["c", "3"], ["d", "4"], ["e", "5"], ["f", "6"]],
    num_columns := 2, table_index := 0, has_financial := false,
    separators := [46] }

/-- A small page for the legacy spatial extractor: two label/number
rows. -/
def legacyPage : PageData :=
  { width := 100,
    words := [mkTok 0 30 10 "Item", mkTok 60 70 10 "50",
              mkTok 0 35 20 "Total", mkTok 60 65 20 "7"] }

/-- A single full-width token row used in the fallback-threshold
example. -/
def fullRow (top : ℚ) : Row := (top, [mkTok 0 100 top "w"])

/-- Ten rows (page width 100) of which exactly 3 contain more than 2
tokens: the sparse rows' whitespace gaps are disjoint, so no position is
uncovered in 2 or more of the 10 rows and the primary strategy finds no
separator; the multi-token fraction is exactly 30%. -/
def borderRows : List Row :=
  [fullRow 10, fullRow 20, fullRow 30, fullRow 40, fullRow 50, fullRow 60, fullRow 70,
   (80, [mkTok 0 30 80 "w", mkTok 40 66 80 "w", mkTok 70 100 80 "w"]),
   (90, [mkTok 0 8 90 "w", mkTok 10 46 90 "w", mkTok 56 100 90 "w"]),
   (100, [mkTok 0 22 100 "w", mkTok 24 58 100 "w", mkTok 62 100 100 "w"])]

/-- Three rows whose first spacing (300) exceeds the 200-unit region
threshold. -/
def gappedRows : List Row :=
  [(0, [mkTok 0 10 0 "w"]), (300, [mkTok 0 10 300 "w"]), (310, [mkTok 0 10 310 "w"])]

/-- Two rows 30 units apart: no spacing exceeds the region threshold. -/
def closeRows : List Row :=
  [(0, [mkTok 0 10 0 "w"]), (30, [mkTok 0 10 30 "w"])]

/-- The table the legacy extractor emits for `legacyPage` as page 1. -/
def legacyTable : TableS :=
  { page := 1, grid := [["Item", "50"], ["Total", "7"]] }

theorem rowTokens_nil : rowTokens [] = [] := rfl

theorem rowTokens_cons (r : Row) (l : List Row) :
    rowTokens (r :: l) = r.2 ++ rowTokens l := rfl

/-- A flattening of permuted lists of lists is a permutation of the
flattening. -/
theorem flatten_perm {α : Type} {l1 l2 : List (List α)} (h : List.Perm l1 l2) :
    List.Perm l1.flatten l2.flatten := by
  induction h with
  | nil => exact .rfl
  | cons x _ ih => simpa using ih.append_left x
  | swap x y l =>
      simp only [List.flatten_cons]
      rw [← List.append_assoc, ← List.append_assoc]
      exact List.perm_append_comm.append_right _
  | trans _ _ ih1 ih2 => exact ih1.trans ih2

/-- `addWord` adds the token to exactly one row: the grouped tokens are a
permutation of the previous grouped tokens plus the new token. -/
theorem rowTokens_addWord (tol : ℚ) (acc : List Row) (w : Token) :
    List.Perm (rowTokens (addWord tol acc w)) (w :: rowTokens acc) := by
  induction acc with
  | nil => simp [addWord, rowTokens]
  | cons r rest ih =>
      rw [addWord]
      by_cases h : |w.top - r.1| ≤ tol
      · rw [if_pos h, rowTokens_cons, rowTokens_cons]
        rw [List.append_assoc]
        simp only [List.singleton_append]
        exact List.perm_middle
      · rw [if_neg h, rowTokens_cons, rowTokens_cons]
        exact ((ih.append_left r.2).trans List.perm_middle)

/-- Folding the grouping step over a token list appends exactly those
tokens (up to permutation) to the grouped tokens. -/
theorem rowTokens_foldl (tol : ℚ) :
    ∀ (ws : List Token) (acc : List Row),
      List.Perm (rowTokens (ws.foldl (addWord tol) acc)) (rowTokens acc ++ ws) := by
  intro ws
  induction ws with
  | nil => intro acc; simp
  | cons w rest ih =>
      intro acc
      have h1 := ih (addWord tol acc w)
      have h2 : List.Perm (rowTokens (addWord tol acc w) ++ rest) ((w :: rowTokens acc) ++ rest) :=
        (rowTokens_addWord tol acc w).append_right rest
      have h3 : List.Perm ((w :: rowTokens acc) ++ rest) (rowTokens acc ++ w :: rest) := by
        simpa using List.perm_middle.symm
      exact (h1.trans h2).trans h3

/-- The grouped-and-sorted rows hold exactly the input tokens. -/
theorem detect_rows_perm (words : List Token) (tol : ℚ) :
    List.Perm (rowTokens (detect_rows_with_consistent_spacing words tol)) words := by
  have hsort : List.Perm (List.insertionSort keyLE (words.foldl (addWord tol) []))
      (words.foldl (addWord tol) []) := List.perm_insertionSort keyLE _
  have h1 : List.Perm (rowTokens (detect_rows_with_consistent_spacing words tol))
      (rowTokens (words.foldl (addWord tol) [])) := flatten_perm (hsort.map _)
  have h2 := rowTokens_foldl tol words []
  simpa using h1.trans h2

/-- The row keys of the output are non-decreasing. -/
theorem detect_rows_sorted (words : List Token) (tol : ℚ) :
    List.Sorted (· ≤ ·) ((detect_rows_with_consistent_spacing words tol).map (fun r => r.1)) := by
  have h := List.sorted_insertionSort keyLE (words.foldl (addWord tol) [])
  exact List.Pairwise.map _ (fun _ _ hab => hab) h

/-- The grouping step never changes an existing row key: when some open
row's key is within tolerance the key list is unchanged, otherwise a new
row keyed at the token's own `top` is appended. -/
theorem addWord_keys (tol : ℚ) (acc : List Row) (w : Token) :
    (addWord tol acc w).map (fun r => r.1) =
      if acc.any (fun r => decide (|w.top - r.1| ≤ tol)) then acc.map (fun r => r.1)
      else acc.map (fun r => r.1) ++ [w.top] := by
  induction acc with
  | nil => simp [addWord]
  | cons r rest ih =>
      rw [addWord]
      by_cases h : |w.top - r.1| ≤ tol
      · simp [h]
      · rw [if_neg h]
        by_cases h2 : rest.any (fun r => decide (|w.top - r.1| ≤ tol))
        · simp only [List.map_cons, ih, if_pos h2]
          simp [List.any_cons, h, h2]
        · simp only [List.map_cons, ih, if_neg h2]
          simp [List.any_cons, h, h2]

theorem spacingsOf_length (rows : List Row) :
    (spacingsOf rows).length = rows.length - 1 := by
  rw [spacingsOf, List.length_zipWith, List.length_tail]
  omega

/-- `regionsGo` always emits a first region starting at its running
`region_start`, provided that start is a valid row index. -/
theorem regionsGo_first (n : ℕ) :
    ∀ (l : List ℚ) (i rs : ℕ), rs ≤ n - 1 →
      ∃ e tl, regionsGo n l i rs = (rs, e) :: tl := by
  intro l
  induction l with
  | nil =>
      intro i rs h
      rw [regionsGo]
      rcases lt_or_eq_of_le h with h2 | h2
      · exact ⟨n - 1, [], by rw [if_pos h2]⟩
      · exact ⟨rs, [], by rw [if_neg (by omega), if_pos h2]⟩
  | cons s rest ih =>
      intro i rs h
      rw [regionsGo]
      by_cases hs : 200 < s
      · exact ⟨i, _, by rw [if_pos hs]⟩
      · rw [if_neg hs]
        exact ih (i + 1) rs h

/-- Every spacing above the 200-unit threshold ends a region at the row
before the gap and starts another at the row after it. -/
theorem regionsGo_gap (n : ℕ) :
    ∀ (l : List ℚ) (i rs : ℕ), i + l.length = n - 1 →
      ∀ j, j < l.length → 200 < l.getD j 0 →
        (i + j) ∈ (regionsGo n l i rs).map (fun p => p.2) ∧
        (i + j + 1) ∈ (regionsGo n l i rs).map (fun p => p.1) := by
  intro l
  induction l with
  | nil =>
      intro i rs _ j hj _
      simp at hj
  | cons s rest ih =>
      intro i rs hinv j hj hgt
      have hinv2 : (i + 1) + rest.length = n - 1 := by
        simp only [List.length_cons] at hinv
        omega
      cases j with
      | zero =>
          have hs : 200 < s := by simpa using hgt
          rw [regionsGo, if_pos hs]
          refine ⟨by simp, ?_⟩
          have hle : i + 1 ≤ n - 1 := by omega
          obtain ⟨e, tl, he⟩ := regionsGo_first n rest (i + 1) (i + 1) hle
          simp [he]
      | succ k =>
          have hk : k < rest.length := by simpa using hj
          have hgt2 : 200 < rest.getD k 0 := by simpa using hgt
          have e1 : i + (k + 1) = (i + 1) + k := by omega
          have e2 : i + (k + 1) + 1 = (i + 1) + k + 1 := by omega
          rw [regionsGo]
          by_cases hs : 200 < s
          · rw [if_pos hs]
            have h2 := ih (i + 1) (i + 1) hinv2 k hk hgt2
            refine ⟨?_, ?_⟩
            · simp only [List.map_cons, List.mem_cons]
              exact Or.inr (by rw [e1]; exact h2.1)
            · simp only [List.map_cons, List.mem_cons]
              exact Or.inr (by rw [e2]; exact h2.2)
          · rw [if_neg hs]
            have h2 := ih (i + 1) rs hinv2 k hk hgt2
            exact ⟨by rw [e1]; exact h2.1, by rw [e2]; exact h2.2⟩

/-- With no spacing above the threshold, the whole row range is one
region. -/
theorem regionsGo_nogap (n : ℕ) :
    ∀ (l : List ℚ) (i : ℕ), (∀ s ∈ l, s ≤ 200) → 0 < n - 1 →
      regionsGo n l i 0 = [(0, n - 1)] := by
  intro l
  induction l with
  | nil =>
      intro i _ h
      rw [regionsGo, if_pos h]
  | cons s rest ih =>
      intro i hall h
      rw [regionsGo, if_neg (not_lt.mpr (hall s (List.mem_cons_self s rest)))]
      exact ih (i + 1) (fun u hu => hall u (List.mem_cons_of_mem _ hu)) h

/-- Dropping the attached average spacing from `analyze_row_spacing`
recovers the raw `regionsGo` index pairs. -/
theorem analyze_map_pairs (rows : List Row) (h : ¬ rows.length < 2) :
    (analyze_row_spacing rows).map (fun r => (r.1, r.2.1)) =
      regionsGo rows.length (spacingsOf rows) 0 0 := by
  rw [analyze_row_spacing, if_neg h, List.map_map]
  exact List.map_id _

/-- Unfolding a successful `buildTable`: the emitted table carries the
requested page number, the region's column count and separators, and the
twice-filtered grid. -/
theorem buildTable_some {pnum idx : ℕ} {width : ℚ} {info : RegionInfo} {t : TableE}
    (h : buildTable pnum idx width info = some t) :
    t.page = pnum ∧ t.num_columns = info.num_columns ∧ t.separators = info.separators ∧
    t.grid = (buildTableData width info).filter (fun row => row.any (fun c => c ≠ "")) := by
  simp only [buildTable] at h
  split at h
  · split at h
    · rw [Option.some.injEq] at h
      subst h
      exact ⟨rfl, rfl, rfl, rfl⟩
    · simp at h
  · simp at h

/-- A successful `buildRegion` sets `num_columns` to one more than the
number of its separators. -/
theorem buildRegion_some {width : ℚ} {sr : List Row} {reg : ℕ × ℕ × ℚ} {info : RegionInfo}
    (h : buildRegion width sr reg = some info) :
    info.num_columns = info.separators.length + 1 := by
  simp only [buildRegion] at h
  split at h
  · simp at h
  · rw [Option.some.injEq] at h
    subst h
    rfl

/-- Every region reported by `identify_table_regions` satisfies
`num_columns = len(separators) + 1`. -/
theorem identify_num_columns {page : PageData} {info : RegionInfo}
    (h : info ∈ identify_table_regions page) :
    info.num_columns = info.separators.length + 1 := by
  rw [identify_table_regions] at h
  split at h
  · simp at h
  · simp only [identifyCore] at h
    split at h
    · simp at h
    · split at h
      · simp at h
      · obtain ⟨reg, _, hsome⟩ := List.mem_filterMap.mp h
        exact buildRegion_some hsome

theorem mem_of_mem_enumFrom {α : Type} :
    ∀ {l : List α} (n : ℕ) {p : ℕ × α}, p ∈ l.enumFrom n → p.2 ∈ l := by
  intro l
  induction l with
  | nil =>
      intro n p h
      simp at h
  | cons a t ih =>
      intro n p h
      rw [List.enumFrom] at h
      rcases List.mem_cons.mp h with h | h
      · subst h
        exact List.mem_cons_self _ _
      · exact List.mem_cons_of_mem _ (ih (n + 1) h)

theorem mem_of_mem_enum {α : Type} {l : List α} {p : ℕ × α} (h : p ∈ l.enum) :
    p.2 ∈ l :=
  mem_of_mem_enumFrom 0 h

theorem setCellAt_length (row : List String) (i : ℕ) (t : String) :
    (setCellAt row i t).length = row.length := by
  rw [setCellAt, List.length_set]

theorem foldl_length_invariant {α : Type} (f : List String → α → List String)
    (hf : ∀ row a, (f row a).length = row.length) :
    ∀ (l : List α) (row : List String), (l.foldl f row).length = row.length := by
  intro l
  induction l with
  | nil => intro row; rfl
  | cons a t ih =>
      intro row
      rw [List.foldl_cons, ih, hf]

/-- Every assembled row has exactly `num_columns` cells. -/
theorem assembleRow_length (width : ℚ) (numCols : ℕ) (seps : List ℚ) (ws : List Token) :
    (assembleRow width numCols seps ws).length = numCols := by
  simp only [assembleRow]
  rw [List.length_map]
  rw [foldl_length_invariant _ ?_, List.length_replicate]
  intro row w
  by_cases h : seps = []
  · rw [if_pos h, setCellAt_length]
  · rw [if_neg h]
    split
    · rw [setCellAt_length]
    · rfl

/-- Rows surviving the `table_data` filter are full-width and have a
non-empty cell. -/
theorem mem_buildTableData {width : ℚ} {info : RegionInfo} {row : List String}
    (h : row ∈ buildTableData width info) :
    row.length = info.num_columns ∧ row.any (fun c => c ≠ "") = true := by
  rw [buildTableData] at h
  obtain ⟨hm, hp⟩ := List.mem_filter.mp h
  obtain ⟨r, _, heq⟩ := List.mem_map.mp hm
  exact ⟨heq ▸ assembleRow_length width info.num_columns info.separators r.2, hp⟩

/-- Structural invariants of every table a page emits: the page stamp,
the column-count identity, and the rectangular, no-empty-row grid. -/
theorem tablesOfPage_props {n : ℕ} {page : PageData} {t : TableE}
    (h : t ∈ tablesOfPage n page) :
    t.page = n ∧ t.num_columns = t.separators.length + 1 ∧
    t.grid.all
      (fun row => decide (row.length = t.num_columns) && row.any (fun c => c ≠ "")) = true := by
  rw [tablesOfPage] at h
  obtain ⟨p, hpmem, hsome⟩ := List.mem_filterMap.mp h
  have hinfo : p.2 ∈ identify_table_regions page := mem_of_mem_enum hpmem
  obtain ⟨hpage, hnc, hseps, hgrid⟩ := buildTable_some hsome
  have hnc2 : t.num_columns = t.separators.length + 1 := by
    rw [hnc, identify_num_columns hinfo, hseps]
  refine ⟨hpage, hnc2, ?_⟩
  rw [List.all_eq_true]
  intro row hrow
  rw [hgrid] at hrow
  obtain ⟨hmem, hany⟩ := List.mem_filter.mp hrow
  obtain ⟨hlen, _⟩ := mem_buildTableData hmem
  rw [Bool.and_eq_true]
  exact ⟨decide_eq_true (by rw [hlen, hnc]), hany⟩

/-- Invariants propagated through the page loop, together with a lower
bound on the page numbers. -/
theorem extractGoE_props :
    ∀ (pgs : List (Option PageData)) (n : ℕ) (t : TableE), t ∈ extractGoE n pgs →
      n ≤ t.page ∧ t.num_columns = t.separators.length + 1 ∧
      t.grid.all
        (fun row => decide (row.length = t.num_columns) && row.any (fun c => c ≠ "")) = true := by
  intro pgs
  induction pgs with
  | nil =>
      intro n t h
      simp [extractGoE] at h
  | cons p rest ih =>
      intro n t h
      cases p with
      | none => simp [extractGoE] at h
      | some q =>
          rw [extractGoE] at h
          rcases List.mem_append.mp h with h | h
          · obtain ⟨hp, h2, h3⟩ := tablesOfPage_props h
            exact ⟨le_of_eq hp.symm, h2, h3⟩
          · obtain ⟨hp, h2, h3⟩ := ih (n + 1) t h
            exact ⟨by omega, h2, h3⟩

/-- If page `i` (0-based) of the document raises, every emitted table
comes from a page strictly before it. -/
theorem extractGoE_page_lt_none :
    ∀ (pgs : List (Option PageData)) (n i : ℕ) (t : TableE),
      pgs.get? i = some none → t ∈ extractGoE n pgs → t.page < n + i := by
  intro pgs
  induction pgs with
  | nil =>
      intro n i t h1 _
      simp at h1
  | cons p rest ih =>
      intro n i t h1 h2
      cases p with
      | none => simp [extractGoE] at h2
      | some q =>
          cases i with
          | zero => simp at h1
          | succ k =>
              rw [List.get?_cons_succ] at h1
              rw [extractGoE] at h2
              rcases List.mem_append.mp h2 with h | h
              · have := (tablesOfPage_props h).1
                omega
              · have := ih (n + 1) k t h1 h
                omega

/-- A raising page stops the enhanced page loop: only the tables of the
error-free prefix are returned. -/
theorem extractGoE_stop :
    ∀ (pre : List (Option PageData)) (n : ℕ) (rest : List (Option PageData)),
      pre.all Option.isSome = true →
      extractGoE n (pre ++ none :: rest) = extractGoE n pre := by
  intro pre
  induction pre with
  | nil => intro n rest _; rfl
  | cons p t ih =>
      intro n rest hall
      rw [List.all_cons, Bool.and_eq_true] at hall
      cases p with
      | none => simp at hall
      | some q =>
          rw [List.cons_append, extractGoE, extractGoE, ih (n + 1) rest hall.2]

/-- A raising page stops the legacy page loop in the same way. -/
theorem extractGoS_stop :
    ∀ (pre : List (Option PageData)) (n : ℕ) (rest : List (Option PageData)),
      pre.all Option.isSome = true →
      extractGoS n (pre ++ none :: rest) = extractGoS n pre := by
  intro pre
  induction pre with
  | nil => intro n rest _; rfl
  | cons p t ih =>
      intro n rest hall
      rw [List.all_cons, Bool.and_eq_true] at hall
      cases p with
      | none => simp at hall
      | some q =>
          rw [List.cons_append, extractGoS, extractGoS, ih (n + 1) rest hall.2]

/-- `foldl max` returns a member of the inputs that bounds all of them. -/
theorem foldl_max_spec :
    ∀ (l : List ℚ) (a : ℚ),
      l.foldl max a ∈ a :: l ∧ ∀ b ∈ a :: l, b ≤ l.foldl max a := by
  intro l
  induction l with
  | nil =>
      intro a
      refine ⟨List.mem_cons_self a [], ?_⟩
      intro b hb
      rcases List.mem_cons.mp hb with h | h
      · exact le_of_eq h
      · simp at h
  | cons x t ih =>
      intro a
      rw [List.foldl_cons]
      obtain ⟨hmem, hb⟩ := ih (max a x)
      constructor
      · rcases List.mem_cons.mp hmem with h | h
        · rcases max_choice a x with h2 | h2
          · rw [h, h2]; exact List.mem_cons_self a _
          · rw [h, h2]
            exact List.mem_cons_of_mem _ (List.mem_cons_self x t)
        · exact List.mem_cons_of_mem _ (List.mem_cons_of_mem _ h)
      · intro b hmb
        rcases List.mem_cons.mp hmb with h | h
        · subst h
          exact le_trans (le_max_left b x) (hb _ (List.mem_cons_self _ _))
        · rcases List.mem_cons.mp h with h2 | h2
          · subst h2
            exact le_trans (le_max_right a b) (hb _ (List.mem_cons_self _ _))
          · exact hb b (List.mem_cons_of_mem _ h2)

/-- `foldl min` returns a member of the inputs bounded by all of them. -/
theorem foldl_min_spec :
    ∀ (l : List ℚ) (a : ℚ),
      l.foldl min a ∈ a :: l ∧ ∀ b ∈ a :: l, l.foldl min a ≤ b := by
  intro l
  induction l with
  | nil =>
      intro a
      refine ⟨List.mem_cons_self a [], ?_⟩
      intro b hb
      rcases List.mem_cons.mp hb with h | h
      · exact le_of_eq h.symm
      · simp at h
  | cons x t ih =>
      intro a
      rw [List.foldl_cons]
      obtain ⟨hmem, hb⟩ := ih (min a x)
      constructor
      · rcases List.mem_cons.mp hmem with h | h
        · rcases min_choice a x with h2 | h2
          · rw [h, h2]; exact List.mem_cons_self a _
          · rw [h, h2]
            exact List.mem_cons_of_mem _ (List.mem_cons_self x t)
        · exact List.mem_cons_of_mem _ (List.mem_cons_of_mem _ h)
      · intro b hmb
        rcases List.mem_cons.mp hmb with h | h
        · subst h
          exact le_trans (hb _ (List.mem_cons_self _ _)) (min_le_left b x)
        · rcases List.mem_cons.mp h with h2 | h2
          · subst h2
            exact le_trans (hb _ (List.mem_cons_self _ _)) (min_le_right a b)
          · exact hb b (List.mem_cons_of_mem _ h2)

/-- Python `max` is invariant under permutation of its argument list. -/
theorem listMax_perm {l1 l2 : List ℚ} (h : List.Perm l1 l2) :
    listMax l1 = listMax l2 := by
  cases l1 with
  | nil =>
      have : l2 = [] := h.symm.eq_nil
      rw [this]
  | cons x t =>
      cases l2 with
      | nil => simp at h
      | cons y s =>
          obtain ⟨m1, b1⟩ := foldl_max_spec t x
          obtain ⟨m2, b2⟩ := foldl_max_spec s y
          exact le_antisymm (b2 _ (h.mem_iff.mp m1)) (b1 _ (h.symm.mem_iff.mp m2))

/-- Python `min` is invariant under permutation of its argument list. -/
theorem listMin_perm {l1 l2 : List ℚ} (h : List.Perm l1 l2) :
    listMin l1 = listMin l2 := by
  cases l1 with
  | nil =>
      have : l2 = [] := h.symm.eq_nil
      rw [this]
  | cons x t =>
      cases l2 with
      | nil => simp at h
      | cons y s =>
          obtain ⟨m1, b1⟩ := foldl_min_spec t x
          obtain ⟨m2, b2⟩ := foldl_min_spec s y
          exact le_antisymm (b1 _ (h.symm.mem_iff.mp m2)) (b2 _ (h.mem_iff.mp m1))

/-- Sorting each row before flattening yields a permutation of the
rows' tokens. -/
theorem flatten_sort_perm (l : List Row) :
    List.Perm ((l.map (fun r => List.insertionSort xLE r.2)).flatten) (rowTokens l) := by
  induction l with
  | nil => exact .rfl
  | cons r t ih =>
      rw [List.map_cons, List.flatten_cons, rowTokens_cons]
      exact (List.perm_insertionSort xLE r.2).append ih

/-- The legacy split computed through the grouped rows equals the
spec-side split over the raw token list. -/
theorem spatialSplit_eq_spec (words : List Token) (width : ℚ) :
    spatialSplit (detect_rows_with_consistent_spacing words 3) width =
      spatial_split_spec words width := by
  have hperm :
      List.Perm (((detect_rows_with_consistent_spacing words 3).map
        (fun r => List.insertionSort xLE r.2)).flatten) words :=
    (flatten_sort_perm _).trans (detect_rows_perm words 3)
  simp only [spatialSplit, spatial_split_spec]
  have pA := (hperm.filter (fun w => !pyNumRe w.text)).map (fun w => w.x1)
  have pB := (hperm.filter (fun w => pyNumRe w.text)).map (fun w => w.x0)
  have hA := listMax_perm pA
  have hB := listMin_perm pB
  have hc :
      ((((detect_rows_with_consistent_spacing words 3).map
          (fun r => List.insertionSort xLE r.2)).flatten.filter
          (fun w => !pyNumRe w.text)).map (fun w => w.x1) ≠ [] ∧
       (((detect_rows_with_consistent_spacing words 3).map
          (fun r => List.insertionSort xLE r.2)).flatten.filter
          (fun w => pyNumRe w.text)).map (fun w => w.x0) ≠ []) ↔
      ((words.filter (fun w => !pyNumRe w.text)).map (fun w => w.x1) ≠ [] ∧
       (words.filter (fun w => pyNumRe w.text)).map (fun w => w.x0) ≠ []) := by
    rw [← List.length_pos_iff_ne_nil, ← List.length_pos_iff_ne_nil,
        ← List.length_pos_iff_ne_nil, ← List.length_pos_iff_ne_nil,
        pA.length_eq, pB.length_eq]
  exact if_congr hc (by rw [hA, hB]) rfl

/-- The legacy per-page extraction equals its spec-side restatement. -/
theorem tablesOfPageS_eq_spec (n : ℕ) (pd : PageData) :
    tablesOfPageS n pd = tablesOfPageS_spec n pd := by
  simp only [tablesOfPageS, tablesOfPageS_spec, spatialSplit_eq_spec]

/-- A legacy table carries the page number it was built for. -/
theorem tablesOfPageS_page {n : ℕ} {pd : PageData} {t : TableS}
    (h : tablesOfPageS n pd = some t) : t.page = n := by
  simp only [tablesOfPageS] at h
  split at h
  · simp at h
  · split at h
    · split at h
      · rw [Option.some.injEq] at h
        subst h
        rfl
      · simp at h
    · simp at h

/-- Every row of a legacy table's grid has exactly two cells. -/
theorem tablesOfPageS_two_cols {n : ℕ} {pd : PageData} {t : TableS}
    (h : tablesOfPageS n pd = some t) :
    ∀ row ∈ t.grid, row.length = 2 := by
  simp only [tablesOfPageS] at h
  split at h
  · simp at h
  · split at h
    · split at h
      · rw [Option.some.injEq] at h
        subst h
        intro row hrow
        obtain ⟨hm, _⟩ := List.mem_filter.mp hrow
        obtain ⟨r, _, heq⟩ := List.mem_filterMap.mp hm
        split at heq
        · rw [Option.some.injEq] at heq
          subst heq
          rfl
        · simp at heq
      · simp at h
    · simp at h

/-- Page numbers in the legacy loop are bounded below by the counter. -/
theorem extractGoS_page_ge :
    ∀ (pgs : List (Option PageData)) (n : ℕ) (t : TableS),
      t ∈ extractGoS n pgs → n ≤ t.page := by
  intro pgs
  induction pgs with
  | nil =>
      intro n t h
      simp [extractGoS] at h
  | cons p rest ih =>
      intro n t h
      cases p with
      | none => simp [extractGoS] at h
      | some q =>
          rw [extractGoS] at h
          rcases List.mem_append.mp h with h | h
          · cases htl : tablesOfPageS n q with
            | none => rw [htl] at h; simp at h
            | some u =>
                rw [htl] at h
                simp only [Option.toList, List.mem_singleton] at h
                subst h
                exact le_of_eq (tablesOfPageS_page htl).symm
          · have := ih (n + 1) t h
            omega

/-- Distinct tables of the legacy extractor come from distinct pages. -/
theorem extractGoS_pairwise :
    ∀ (pgs : List (Option PageData)) (n : ℕ),
      List.Pairwise (fun a b => a.page ≠ b.page) (extractGoS n pgs) := by
  intro pgs
  induction pgs with
  | nil => intro n; exact List.Pairwise.nil
  | cons p rest ih =>
      intro n
      cases p with
      | none => exact List.Pairwise.nil
      | some q =>
          rw [extractGoS]
          cases htl : tablesOfPageS n q with
          | none => simpa using ih (n + 1)
          | some u =>
              simp only [Option.toList, List.singleton_append]
              refine List.Pairwise.cons ?_ (ih (n + 1))
              intro b hb
              have h1 : u.page = n := tablesOfPageS_page htl
              have h2 : n + 1 ≤ b.page := extractGoS_page_ge rest (n + 1) b hb
              omega

/-- Every table of the legacy loop has a two-column grid. -/
theorem extractGoS_grid_two :
    ∀ (pgs : List (Option PageData)) (n : ℕ) (t : TableS),
      t ∈ extractGoS n pgs → ∀ row ∈ t.grid, row.length = 2 := by
  intro pgs
  induction pgs with
  | nil =>
      intro n t h
      simp [extractGoS] at h
  | cons p rest ih =>
      intro n t h
      cases p with
      | none => simp [extractGoS] at h
      | some q =>
          rw [extractGoS] at h
          rcases List.mem_append.mp h with h | h
          · cases htl : tablesOfPageS n q with
            | none => rw [htl] at h; simp at h
            | some u =>
                rw [htl] at h
                simp only [Option.toList, List.mem_singleton] at h
                subst h
                exact tablesOfPageS_two_cols htl
          · exact ih (n + 1) t h

/-- On a sorted separator list, the source's break-on-first-failure walk
counts exactly the separators strictly below the reference position. -/
theorem colWalk_eq_filter :
    ∀ (seps : List ℚ), List.Sorted (· ≤ ·) seps → ∀ pos : ℚ,
      colWalk seps pos = (seps.filter (fun s => decide (s < pos))).length := by
  intro seps
  induction seps with
  | nil => intro _ pos; rfl
  | cons s t ih =>
      intro hs pos
      have ht : List.Sorted (· ≤ ·) t := hs.of_cons
      have h2 := ih ht pos
      rw [colWalk] at h2
      by_cases h : s < pos
      · simp [colWalk, List.takeWhile_cons, List.filter_cons, h, h2]
      · have hnil : t.filter (fun s => decide (s < pos)) = [] := by
          rw [List.filter_eq_nil_iff]
          intro u hu
          have hsu : s ≤ u := List.rel_of_sorted_cons hs u hu
          simp only [decide_eq_true_eq]
          exact fun hlt => h (lt_of_le_of_lt hsu hlt)
        simp [colWalk, List.takeWhile_cons, List.filter_cons, h, hnil]

/-- For nonnegative coordinates the integer clamp of the source equals the
spec's floor-and-clamp column index. -/
theorem colIndexNoSep_toNat_eq (width : ℚ) (numCols : ℕ) (x0 : ℚ)
    (hx : 0 ≤ x0) (hw : 0 < width) (hn : 0 < numCols) :
    (colIndexNoSep width numCols x0).toNat = colIndexNoSep_spec width numCols x0 := by
  have hwn : (0 : ℚ) < width / (numCols : ℚ) := by positivity
  have hq : (0 : ℚ) ≤ x0 / (width / (numCols : ℚ)) := div_nonneg hx (le_of_lt hwn)
  rw [colIndexNoSep, colIndexNoSep_spec, pyint, if_pos hq]
  have h0 : 0 ≤ ⌊x0 / (width / (numCols : ℚ))⌋ := Int.floor_nonneg.mpr hq
  rcases le_total ⌊x0 / (width / (numCols : ℚ))⌋ ((numCols : ℤ) - 1) with h | h
  · rw [min_eq_left h, min_eq_left (by omega)]
  · rw [min_eq_right h, min_eq_right (by omega)]
    omega

theorem rows_pos_of_allX {rows : List Row} (h : allXPositions rows ≠ []) :
    0 < rows.length := by
  cases rows with
  | nil => exact absurd rfl h
  | cons r t => simp

/-- The fallback branch condition of `detect_vertical_gaps`, spelled
out. -/
theorem fallback_used_iff (rows : List Row) (width : ℚ) :
    fallback_used rows width = true ↔
      (allXPositions rows ≠ [] ∧ primary_separators rows width = [] ∧
       0 < rows.length ∧ (3 / 10 : ℚ) * (rows.length : ℚ) < (mwCount rows : ℚ)) := by
  simp [fallback_used, and_assoc]

/-- `detect_vertical_gaps` returns exactly the fallback's output when its
fallback condition holds, and the primary strategy's output otherwise. -/
theorem detect_vertical_gaps_eq (rows : List Row) (width : ℚ) :
    detect_vertical_gaps rows width =
      if fallback_used rows width = true
      then detect_column_separators_by_position rows width
      else primary_separators rows width := by
  rw [detect_vertical_gaps]
  by_cases hax : allXPositions rows = []
  · have hp : primary_separators rows width = [] := by
      rw [primary_separators]
      simp [hax]
    have hf : fallback_used rows width = false := by
      simp [fallback_used, hax]
    rw [if_pos hax, hf]
    simp [hp]
  · rw [if_neg hax]
    by_cases hc : primary_separators rows width = [] ∧ 0 < rows.length ∧
        (3 / 10 : ℚ) * (rows.length : ℚ) < (mwCount rows : ℚ)
    · have hf : fallback_used rows width = true :=
        (fallback_used_iff rows width).mpr ⟨hax, hc.1, hc.2.1, hc.2.2⟩
      rw [if_pos hc, hf, if_pos rfl]
    · have hf : fallback_used rows width = false := by
        rcases Bool.eq_false_or_eq_true (fallback_used rows width) with h | h
        · exact absurd ⟨((fallback_used_iff rows width).mp h).2.1,
            ((fallback_used_iff rows width).mp h).2.2.1,
            ((fallback_used_iff rows width).mp h).2.2.2⟩ hc
        · exact h
      rw [if_neg hc, hf]
      simp

set_option maxRecDepth 10000

/-- C4: the row grouper scans tokens in input order; a token joins the
first open row whose key is within 3 units of its `top` (keys are first
members' tops and are never recentered), else it opens a new row keyed at
its own `top`; the sorted rows hold every input token exactly once (a
permutation of the input) and their keys are non-decreasing. -/
theorem row_grouper_correct (words : List Token) :
    List.Perm (rowTokens (detect_rows_with_consistent_spacing words 3)) words ∧
    List.Sorted (· ≤ ·) ((detect_rows_with_consistent_spacing words 3).map (fun r => r.1)) ∧
    (∀ (acc : List Row) (w : Token),
      (addWord 3 acc w).map (fun r => r.1) =
        if acc.any (fun r => decide (|w.top - r.1| ≤ 3)) then acc.map (fun r => r.1)
        else acc.map (fun r => r.1) ++ [w.top]) :=
  ⟨detect_rows_perm words 3, detect_rows_sorted words 3, fun acc w => addWord_keys 3 acc w⟩

/-- C7: region segmentation over the ordered rows: fewer than 2 rows give
no regions; if no inter-row spacing exceeds 200 units the whole page is
the single region `(0, n-1)`; and every spacing strictly above 200 ends a
region at the row before the gap and starts one at the row after it. -/
theorem region_segmentation_correct (rows : List Row) :
    (rows.length < 2 → analyze_row_spacing rows = []) ∧
    (2 ≤ rows.length → (∀ s ∈ spacingsOf rows, s ≤ 200) →
      (analyze_row_spacing rows).map (fun r => (r.1, r.2.1)) = [(0, rows.length - 1)]) ∧
    (∀ i, i < (spacingsOf rows).length → 200 < (spacingsOf rows).getD i 0 →
      i ∈ (analyze_row_spacing rows).map (fun r => r.2.1) ∧
      (i + 1) ∈ (analyze_row_spacing rows).map (fun r => r.1)) := by
  refine ⟨?_, ?_, ?_⟩
  · intro h
    rw [analyze_row_spacing, if_pos h]
  · intro h hall
    have hn : ¬ rows.length < 2 := by omega
    rw [analyze_map_pairs rows hn]
    exact regionsGo_nogap rows.length (spacingsOf rows) 0 hall (by omega)
  · intro i hi hgt
    have hlen := spacingsOf_length rows
    have hn : ¬ rows.length < 2 := by omega
    have hinv : 0 + (spacingsOf rows).length = rows.length - 1 := by omega
    have hg := regionsGo_gap rows.length (spacingsOf rows) 0 0 hinv i hi hgt
    have e2 : (analyze_row_spacing rows).map (fun r => r.2.1) =
        (regionsGo rows.length (spacingsOf rows) 0 0).map (fun p => p.2) := by
      rw [analyze_row_spacing, if_neg hn, List.map_map]
      rfl
    have e1 : (analyze_row_spacing rows).map (fun r => r.1) =
        (regionsGo rows.length (spacingsOf rows) 0 0).map (fun p => p.1) := by
      rw [analyze_row_spacing, if_neg hn, List.map_map]
      rfl
    constructor
    · rw [e2]
      simpa using hg.1
    · rw [e1]
      simpa using hg.2

/-- Witness for C7: on `gappedRows` (spacings 300, 10) the 300-unit gap at
index 0 ends a region at row 0 and starts one at row 1; on `closeRows`
(single spacing 30) the whole page is one region. -/
theorem region_segmentation_correct_witness :
    (0 < (spacingsOf gappedRows).length ∧ 200 < (spacingsOf gappedRows).getD 0 0 ∧
     0 ∈ (analyze_row_spacing gappedRows).map (fun r => r.2.1) ∧
     1 ∈ (analyze_row_spacing gappedRows).map (fun r => r.1)) ∧
    (2 ≤ closeRows.length ∧
     (analyze_row_spacing closeRows).map (fun r => (r.1, r.2.1)) = [(0, 1)]) := by
  constructor
  · have h := (region_segmentation_correct gappedRows).2.2 0
      (by with_unfolding_all decide) (by with_unfolding_all decide)
    exact ⟨by with_unfolding_all decide, by with_unfolding_all decide, h.1, h.2⟩
  · exact ⟨by decide, (region_segmentation_correct closeRows).2.1 (by decide)
      (by with_unfolding_all decide)⟩

/-- C3: a page with fewer than 10 tokens yields no regions and no tables
from the enhanced extraction, whatever the tokens' arrangement. -/
theorem min_token_guard (n : ℕ) (page : PageData) (h : page.words.length < 10) :
    identify_table_regions page = [] ∧ tablesOfPage n page = [] := by
  have h1 : identify_table_regions page = [] := by
    rw [identify_table_regions, if_pos (Or.inr h)]
  refine ⟨h1, ?_⟩
  rw [tablesOfPage, h1]
  rfl

/-- Witness for C3: the 4-token scenario page is dropped by the guard. -/
theorem min_token_guard_witness :
    scenarioPage.words.length < 10 ∧ identify_table_regions scenarioPage = [] ∧
    tablesOfPage 1 scenarioPage = [] := by
  have h : scenarioPage.words.length < 10 := by decide
  exact ⟨h, (min_token_guard 1 scenarioPage h).1, (min_token_guard 1 scenarioPage h).2⟩

/-- C5: every table the enhanced extractor emits has
`num_columns = len(separators) + 1`, a rectangular grid whose rows all
have `num_columns` cells, and no fully-empty row. -/
theorem emitted_table_invariants (pages : List (Option PageData)) (t : TableE)
    (h : t ∈ extract_table_with_column_detection pages) :
    t.num_columns = t.separators.length + 1 ∧
    t.grid.all
      (fun row => decide (row.length = t.num_columns) && row.any (fun c => c ≠ "")) = true := by
  have hp := extractGoE_props pages 1 t h
  exact ⟨hp.2.1, hp.2.2⟩

/-- Witness for C5: the table extracted from `richPage`. -/
theorem emitted_table_invariants_witness :
    richTable ∈ extract_table_with_column_detection [some richPage] ∧
    richTable.num_columns = richTable.separators.length + 1 ∧
    richTable.grid.all
      (fun row => decide (row.length = richTable.num_columns) &&
        row.any (fun c => c ≠ "")) = true := by
  have hm : richTable ∈ extract_table_with_column_detection [some richPage] := by
    rw [show extract_table_with_column_detection [some richPage] = [richTable] from by
      with_unfolding_all rfl]
    exact List.mem_cons_self _ _
  obtain ⟨h1, h2⟩ := emitted_table_invariants [some richPage] richTable hm
  exact ⟨hm, h1, h2⟩

/-- C6: in cell assembly, with a (sorted, as the spec specifies separator
sets to be) non-empty separator list the walk on the token's left edge
equals the number of separators strictly below `x0`; with no separators
the index is `floor(x0 / (page_width / num_columns))` clamped to
`num_columns - 1`. -/
theorem cell_assembly_column_index (seps : List ℚ) (pos : ℚ) (width : ℚ)
    (numCols : ℕ) (x0 : ℚ) :
    (List.Sorted (· ≤ ·) seps →
      colWalk seps pos = (seps.filter (fun s => decide (s < pos))).length) ∧
    (0 ≤ x0 → 0 < width → 0 < numCols →
      (colIndexNoSep width numCols x0).toNat = colIndexNoSep_spec width numCols x0) :=
  ⟨fun hs => colWalk_eq_filter seps hs pos,
   fun hx hw hn => colIndexNoSep_toNat_eq width numCols x0 hx hw hn⟩

/-- Witness for C6 at separators `[100, 200]`, position 150, and the
no-separator case at width 100, 2 columns, `x0 = 75`. -/
theorem cell_assembly_column_index_witness :
    List.Sorted (· ≤ ·) [(100 : ℚ), 200] ∧
    colWalk [(100 : ℚ), 200] 150 =
      ([(100 : ℚ), 200].filter (fun s => decide (s < 150))).length ∧
    (0 : ℚ) ≤ 75 ∧ (0 : ℚ) < 100 ∧ 0 < 2 ∧
    (colIndexNoSep 100 2 75).toNat = colIndexNoSep_spec 100 2 75 := by
  have hs : List.Sorted (· ≤ ·) [(100 : ℚ), 200] := by
    with_unfolding_all decide
  refine ⟨hs, (cell_assembly_column_index [(100 : ℚ), 200] 150 100 2 75).1 hs,
    by with_unfolding_all decide, by with_unfolding_all decide, by decide,
    (cell_assembly_column_index [(100 : ℚ), 200] 150 100 2 75).2
      (by with_unfolding_all decide) (by with_unfolding_all decide) (by decide)⟩

/-- C8 (amended): the position-clustering fallback runs exactly when the
region has tokens, the primary strategy found no separator, and STRICTLY
more than 30% of the rows have more than 2 tokens (the source compares
with `>`, not `≥`). -/
theorem fallback_invocation (rows : List Row) (width : ℚ) :
    detect_vertical_gaps rows width =
      (if fallback_used rows width = true
       then detect_column_separators_by_position rows width
       else primary_separators rows width) ∧
    (fallback_used rows width = true ↔
      (primary_separators rows width = [] ∧ allXPositions rows ≠ [] ∧
       (3 / 10 : ℚ) * (rows.length : ℚ) < (mwCount rows : ℚ))) := by
  refine ⟨detect_vertical_gaps_eq rows width, ?_⟩
  rw [fallback_used_iff]
  constructor
  · rintro ⟨h1, h2, _, h4⟩
    exact ⟨h2, h1, h4⟩
  · rintro ⟨h1, h2, h3⟩
    exact ⟨h2, h1, rows_pos_of_allX h2, h3⟩

/-- Counterexample to C8 as stated: on `borderRows` the primary strategy
finds no separator and exactly 30% of the rows (3 of 10) have more than 2
tokens — "at least 30%" holds — yet the fallback is NOT invoked and
`detect_vertical_gaps` returns the primary result. -/
theorem fallback_threshold_counterexample :
    primary_separators borderRows 100 = [] ∧
    borderRows.length = 10 ∧ mwCount borderRows = 3 ∧
    (3 / 10 : ℚ) * (borderRows.length : ℚ) ≤ (mwCount borderRows : ℚ) ∧
    allXPositions borderRows ≠ [] ∧
    fallback_used borderRows 100 = false ∧
    detect_vertical_gaps borderRows 100 = primary_separators borderRows 100 := by
  refine ⟨by with_unfolding_all rfl, by decide, by decide,
    by with_unfolding_all decide, by with_unfolding_all decide,
    by with_unfolding_all rfl, by with_unfolding_all rfl⟩

/-- C1 (amended): when processing page `i` (0-based) raises, the document
loop is aborted by the document-level handler: that page and all later
pages contribute zero tables, and only tables of earlier pages (1-based
numbers `≤ i`) are returned. -/
theorem page_failure_aborts (pages : List (Option PageData)) (i : ℕ) (t : TableE)
    (h1 : pages.get? i = some none)
    (h2 : t ∈ extract_table_with_column_detection pages) :
    t.page ≤ i := by
  have := extractGoE_page_lt_none pages 1 i t h1 h2
  omega

/-- Witness for C1 (amended): page 2 of `[richPage, failing]` raises and
the one emitted table comes from page 1. -/
theorem page_failure_aborts_witness :
    ([some richPage, none] : List (Option PageData)).get? 1 = some none ∧
    richTable ∈ extract_table_with_column_detection [some richPage, none] ∧
    richTable.page ≤ 1 := by
  have h1 : ([some richPage, none] : List (Option PageData)).get? 1 = some none := rfl
  have hm : richTable ∈ extract_table_with_column_detection [some richPage, none] := by
    rw [show extract_table_with_column_detection [some richPage, none] = [richTable] from by
      with_unfolding_all rfl]
    exact List.mem_cons_self _ _
  exact ⟨h1, hm, page_failure_aborts [some richPage, none] 1 richTable h1 hm⟩

/-- Counterexample to C1 as stated: when page 1 raises, page 2 — which on
its own yields a table — is never processed and contributes nothing, so
the extractor does NOT continue with the subsequent pages of the
document. -/
theorem page_failure_counterexample :
    extract_table_with_column_detection [none, some richPage] = [] ∧
    extract_table_with_column_detection [some richPage] = [richTable] :=
  ⟨rfl, by with_unfolding_all rfl⟩

/-- C9: a raising page never escapes the document boundary: both
extractors return exactly the tables accumulated from the error-free
prefix of the document, and later pages are not processed (the model's
extractors are total functions, so no exception can escape). -/
theorem document_error_boundary (pre rest : List (Option PageData))
    (h : pre.all Option.isSome = true) :
    extract_table_with_column_detection (pre ++ none :: rest) =
      extract_table_with_column_detection pre ∧
    extract_table_spatial (pre ++ none :: rest) = extract_table_spatial pre :=
  ⟨extractGoE_stop pre 1 rest h, extractGoS_stop pre 1 rest h⟩

/-- Witness for C9 with a one-page error-free prefix. -/
theorem document_error_boundary_witness :
    ([some richPage] : List (Option PageData)).all Option.isSome = true ∧
    extract_table_with_column_detection ([some richPage] ++ none :: [some scenarioPage]) =
      extract_table_with_column_detection [some richPage] ∧
    extract_table_spatial ([some richPage] ++ none :: [some scenarioPage]) =
      extract_table_spatial [some richPage] := by
  have h : ([some richPage] : List (Option PageData)).all Option.isSome = true := rfl
  exact ⟨h, (document_error_boundary [some richPage] [some scenarioPage] h).1,
    (document_error_boundary [some richPage] [some scenarioPage] h).2⟩

/-- Counterexample to C2 as stated: the scenario page has only 4 tokens,
so `identify_table_regions` produces zero regions (not one) and the
enhanced extraction emits zero tables. -/
theorem scenario1_counterexample :
    identify_table_regions scenarioPage = [] ∧
    extract_table_with_column_detection [some scenarioPage] = [] := by
  exact ⟨by with_unfolding_all rfl, by with_unfolding_all rfl⟩

/-- C2 (amended): on the scenario page the enhanced extraction emits zero
regions and zero tables because the page has fewer than 10 tokens; with
that guard removed, the region pipeline produces one region with exactly
one separator near x = 225 (at 226) and the grid
`[["Revenue", "100"], ["Cost", "50"]]`. -/
theorem scenario1_amended :
    identify_table_regions scenarioPage = [] ∧
    extract_table_with_column_detection [some scenarioPage] = [] ∧
    (identify_table_regions_nomin scenarioPage).map (fun i => i.separators) = [[226]] ∧
    |(226 : ℚ) - 225| ≤ 10 ∧
    (identify_table_regions_nomin scenarioPage).map
      (fun i => buildTableData scenarioPage.width i) =
      [[["Revenue", "100"], ["Cost", "50"]]] := by
  refine ⟨by with_unfolding_all rfl, by with_unfolding_all rfl,
    by with_unfolding_all rfl, by with_unfolding_all decide, by with_unfolding_all rfl⟩

/-- C10: every legacy table has two-cell grid rows and at most one table
is emitted per page (pairwise distinct page numbers); the per-page result
equals the spec-side restatement whose split point is the midpoint between
the maximum right edge of non-numeric-looking tokens and the minimum left
edge of numeric-looking ones (default: half the page width), tokens going
to column 1 exactly when `x0` is below the split. -/
theorem legacy_spatial_properties (pages : List (Option PageData)) :
    List.Pairwise (fun a b => a.page ≠ b.page) (extract_table_spatial pages) ∧
    (∀ t ∈ extract_table_spatial pages, ∀ row ∈ t.grid, row.length = 2) ∧
    (∀ (n : ℕ) (pd : PageData), tablesOfPageS n pd = tablesOfPageS_spec n pd) ∧
    (∀ (words : List Token) (width : ℚ),
      spatialSplit (detect_rows_with_consistent_spacing words 3) width =
        spatial_split_spec words width) :=
  ⟨extractGoS_pairwise pages 1,
   fun t ht => extractGoS_grid_two pages 1 t ht,
   fun n pd => tablesOfPageS_eq_spec n pd,
   fun words width => spatialSplit_eq_spec words width⟩

/-- Witness for C10 on `legacyPage`. -/
theorem legacy_spatial_properties_witness :
    List.Pairwise (fun a b => a.page ≠ b.page) (extract_table_spatial [some legacyPage]) ∧
    legacyTable ∈ extract_table_spatial [some legacyPage] ∧
    legacyTable.grid.all (fun row => decide (row.length = 2)) = true ∧
    tablesOfPageS 1 legacyPage = tablesOfPageS_spec 1 legacyPage := by
  have hp := legacy_spatial_properties [some legacyPage]
  have hm : legacyTable ∈ extract_table_spatial [some legacyPage] := by
    rw [show extract_table_spatial [some legacyPage] = [legacyTable] from by
      with_unfolding_all rfl]
    exact List.mem_cons_self _ _
  refine ⟨hp.1, hm, ?_, hp.2.2.1 1 legacyPage⟩
  rw [List.all_eq_true]
  intro row hrow
  exact decide_eq_true (hp.2.1 legacyTable hm row hrow)

end PdfExtract

